import Mathlib

/-!
Verification of the oxydendrum tree renderer.

The Rust source (src/lib.rs) defines an `Indent` token enum, a `Node` tree
type, and a recursive `render` method that draws an ASCII tree.  Strings are
modelled as `List Char`; the `Vec<Indent>` prefix is a `List Indent`.
-/

/-- Mirrors the Rust `enum Indent { Blank, Uplink, Split, Last }`. -/
inductive Indent where
  | Blank
  | Uplink
  | Split
  | Last
deriving DecidableEq, Repr

/-- Mirrors `impl fmt::Display for Indent`: each token renders to exactly
three characters. -/
def indentStr : Indent → List Char
  | Indent.Blank  => [' ', ' ', ' ']
  | Indent.Uplink => ['|', ' ', ' ']
  | Indent.Split  => ['+', '-', '-']
  | Indent.Last   => ['`', '-', '-']

/-- Mirrors the Rust `struct Node { name: String, children: Vec<Node> }`. -/
inductive Node where
  | mk (name : List Char) (children : List Node)

/-- Projection for the `name` field. -/
def Node.name : Node → List Char
  | .mk n _ => n

/-- Projection for the `children` field. -/
def Node.children : Node → List Node
  | .mk _ cs => cs

/-- Mirrors `*child_prefix.last_mut() = x` guarded by `if let Some(..)`:
replace the final element of the list, if any. -/
def setLast : List Indent → Indent → List Indent
  | [], _ => []
  | [_], x => [x]
  | a :: b :: rest, x => a :: setLast (b :: rest) x

/-- The text produced by the loop `for indent in prefix.iter()` in `render`:
each token's three characters followed by one pushed space. -/
def pfxText (p : List Indent) : List Char :=
  p.flatMap (fun ind => indentStr ind ++ [' '])

mutual

/-- Mirrors `Node::render(&self, prefix, is_last) -> String`: emit the prefix,
then the name, then each child after a newline, recursing with the adjusted
prefix stack. -/
def Node.render : Node → List Indent → Bool → List Char
  | .mk name children, pfx, isLast =>
      pfxText pfx ++ name ++ renderKids children pfx isLast

/-- The `for (i, child) in self.children.iter().enumerate()` loop body of
`render`: the cloned prefix has its last element replaced by `Blank`/`Uplink`,
then the child's connector (`Last` for the final child, `Split` otherwise) is
pushed, and the child is rendered after a newline. -/
def renderKids : List Node → List Indent → Bool → List Char
  | [], _, _ => []
  | c :: rest, pfx, isLast =>
      let childBase := setLast pfx (if isLast then Indent.Blank else Indent.Uplink)
      let isLastInner := rest.isEmpty
      let next := if isLastInner then Indent.Last else Indent.Split
      '\n' :: (Node.render c (childBase ++ [next]) isLastInner ++ renderKids rest pfx isLast)

end

/-- Mirrors `impl fmt::Display for Node`: render with an empty prefix and
`is_last = true`. -/
def Node.display (t : Node) : List Char :=
  t.render [] true

/-- Mirrors `Node::singleton(name)`. -/
def Node.singleton (name : List Char) : Node :=
  Node.mk name []

/-- Mirrors `Node::flat(name, children)`: leaf children built from the given
names, or a singleton when the list is empty. -/
def Node.flat (name : List Char) (children : List (List Char)) : Node :=
  if children.isEmpty then
    Node.singleton name
  else
    Node.mk name (children.map (fun x => Node.singleton x))

mutual

/-- Total number of nodes in a tree (the root included). -/
def Node.size : Node → Nat
  | .mk _ children => 1 + sizeKids children

/-- Total number of nodes in a forest. -/
def sizeKids : List Node → Nat
  | [] => 0
  | c :: rest => Node.size c + sizeKids rest

end

mutual

/-- No name anywhere in the tree contains a newline character (the data-model
restriction the spec places on callers). -/
def Node.namesOk : Node → Bool
  | .mk name children => !(name.contains '\n') && namesOkKids children

/-- `Node.namesOk` for every tree of a forest. -/
def namesOkKids : List Node → Bool
  | [] => true
  | c :: rest => Node.namesOk c && namesOkKids rest

end

mutual

/-- The line data of a rendering call in document order: for each node visited
by `Node.render`, the prefix stack it is rendered with and its name.  The
recursion mirrors `Node.render` exactly, dropping only the string building. -/
def lineData : Node → List Indent → Bool → List (List Indent × List Char)
  | .mk name children, pfx, isLast =>
      (pfx, name) :: lineDataKids children pfx isLast

/-- Line data of the children loop of `Node.render`. -/
def lineDataKids : List Node → List Indent → Bool → List (List Indent × List Char)
  | [], _, _ => []
  | c :: rest, pfx, isLast =>
      let childBase := setLast pfx (if isLast then Indent.Blank else Indent.Uplink)
      let isLastInner := rest.isEmpty
      let next := if isLastInner then Indent.Last else Indent.Split
      lineData c (childBase ++ [next]) isLastInner ++ lineDataKids rest pfx isLast

end

/-- The full text of one line: rendered prefix followed by the name. -/
def lineText (e : List Indent × List Char) : List Char :=
  pfxText e.1 ++ e.2

/-- Join lines with a single newline between consecutive lines (no trailing
newline). -/
def joinLines : List (List Char) → List Char
  | [] => []
  | l :: rest => l ++ rest.flatMap (fun m => '\n' :: m)

mutual

/-- Depth of every node of a tree in document order, the root at depth `d`. -/
def depthsNode : Node → Nat → List Nat
  | .mk _ children, d => d :: depthsKids children (d + 1)

/-- Depths for a forest whose members sit at depth `d`. -/
def depthsKids : List Node → Nat → List Nat
  | [], _ => []
  | c :: rest, d => depthsNode c d ++ depthsKids rest d

end

mutual

/-- For every node of a tree in document order, whether `Node.render` visits it
with `is_last = true`; the root is visited with the given flag. -/
def flagsNode : Node → Bool → List Bool
  | .mk _ children, b => b :: flagsKids children

/-- Last-sibling flags for a forest: a member is flagged `true` exactly when no
sibling follows it, mirroring `i == self.children.len() - 1`. -/
def flagsKids : List Node → List Bool
  | [] => []
  | c :: rest => flagsNode c rest.isEmpty ++ flagsKids rest

end

/-- Mirrors the argument loop of `main` (src/main.rs): for each path argument
in order, build the tree via `from_path` (abstracted as `fromPath`, which
either yields a `Node` or an I/O error) and print its rendering followed by a
newline; on the first error, stop and return that error.  The result is the
list of printed blocks and the optional error. -/
def processArgs {A E : Type} (fromPath : A → Except E Node) :
    List A → List (List Char) × Option E
  | [] => ([], none)
  | d :: rest =>
      match fromPath d with
      | .error e => ([], some e)
      | .ok tree =>
          let out := Node.display tree ++ ['\n']
          let (outs, res) := processArgs fromPath rest
          (out :: outs, res)

/-- Concrete fixture: a node named `node` with one leaf child `node1`. -/
def nodeOneKid : Node :=
  Node.mk "node".toList [Node.mk "node1".toList []]

/-- Concrete fixture: a node named `node` with two leaf children `node1` and
`node2`, the tree of the spec's concrete scenario 3. -/
def nodeTwoKids : Node :=
  Node.mk "node".toList [Node.mk "node1".toList [], Node.mk "node2".toList []]

/-- Concrete stand-in for `Node::from_path` in the `main` model: argument `0`
yields a singleton tree, every other argument fails with an I/O error. -/
def fromPathFix : Nat → Except Unit Node :=
  fun n => if n = 0 then Except.ok (Node.singleton ['a']) else Except.error ()

/-- Structural induction for `Node`, with the inductive hypothesis available
for every member of the child list. -/
theorem Node.strongInduction {motive : Node → Prop}
    (step : ∀ name children, (∀ c ∈ children, motive c) → motive (Node.mk name children)) :
    ∀ t, motive t
  | .mk name children =>
      step name children (fun c hc => Node.strongInduction step c)
termination_by t => sizeOf t
decreasing_by
  have := List.sizeOf_lt_of_mem hc
  simp only [Node.mk.sizeOf_spec]
  omega

theorem setLast_eq_dropLast (l : List Indent) (x : Indent) (h : l ≠ []) :
    setLast l x = l.dropLast ++ [x] := by
  induction l with
  | nil => exact absurd rfl h
  | cons a t ih =>
    cases t with
    | nil => rfl
    | cons b rest => simp [setLast, ih]

theorem setLast_length (l : List Indent) (x : Indent) :
    (setLast l x).length = l.length := by
  cases l with
  | nil => rfl
  | cons a t =>
    rw [setLast_eq_dropLast _ _ (by simp)]
    simp

theorem setLast_concat (l : List Indent) (a x : Indent) :
    setLast (l ++ [a]) x = l ++ [x] := by
  rw [setLast_eq_dropLast _ _ (by simp), List.dropLast_concat]

theorem indentStr_length (i : Indent) : (indentStr i).length = 3 := by
  cases i <;> rfl

theorem pfxText_length (p : List Indent) : (pfxText p).length = 4 * p.length := by
  induction p with
  | nil => rfl
  | cons i rest ih =>
    simp [pfxText, List.flatMap_cons, indentStr_length] at ih ⊢
    omega

theorem pfxText_append (p q : List Indent) :
    pfxText (p ++ q) = pfxText p ++ pfxText q := by
  simp [pfxText]

theorem mem_pfxText_ne_newline {c : Char} {p : List Indent}
    (h : c ∈ pfxText p) : c ≠ '\n' := by
  simp only [pfxText, List.mem_flatMap] at h
  obtain ⟨i, _, hc⟩ := h
  cases i <;> simp [indentStr] at hc <;> rcases hc with rfl | rfl | rfl | rfl <;> decide

theorem pfxText_ne_nil {p : List Indent} (h : p ≠ []) : pfxText p ≠ [] := by
  intro hnil
  have := pfxText_length p
  rw [hnil] at this
  cases p with
  | nil => exact h rfl
  | cons a t => simp at this

theorem newline_joinLines (l : List Char) (ls : List (List Char)) :
    '\n' :: joinLines (l :: ls) = (l :: ls).flatMap (fun m => '\n' :: m) := by
  simp [joinLines]

theorem renderKids_eq_lines (cs : List Node)
    (ih : ∀ c ∈ cs, ∀ pfx b,
      Node.render c pfx b = joinLines ((lineData c pfx b).map lineText)) :
    ∀ pfx b, renderKids cs pfx b
      = (lineDataKids cs pfx b).flatMap (fun e => '\n' :: lineText e) := by
  induction cs with
  | nil => intro pfx b; rfl
  | cons c rest ihr =>
    intro pfx b
    obtain ⟨cn, ccs⟩ := c
    have hc := ih (Node.mk cn ccs) (by simp)
    have hrest := ihr (fun c hmem => ih c (by simp [hmem]))
    simp only [renderKids, lineDataKids, List.flatMap_append, hrest, hc, lineData,
      List.map_cons, joinLines, List.flatMap_cons, lineText]
    simp [List.flatMap_map, lineText]

theorem render_eq_lines (t : Node) : ∀ (pfx : List Indent) (b : Bool),
    Node.render t pfx b = joinLines ((lineData t pfx b).map lineText) := by
  induction t using Node.strongInduction with
  | step name children ih =>
    intro pfx b
    simp only [Node.render, lineData, List.map_cons, joinLines, lineText,
      renderKids_eq_lines children ih, List.flatMap_map]

theorem lineDataKids_depths (cs : List Node)
    (ih : ∀ c ∈ cs, ∀ (pfx : List Indent) (b : Bool),
      (lineData c pfx b).map (fun e => e.1.length) = depthsNode c pfx.length) :
    ∀ (pfx : List Indent) (b : Bool),
      (lineDataKids cs pfx b).map (fun e => e.1.length)
        = depthsKids cs (pfx.length + 1) := by
  induction cs with
  | nil => intro pfx b; rfl
  | cons c rest ihr =>
    intro pfx b
    simp only [lineDataKids, depthsKids, List.map_append]
    rw [ihr (fun c' h' => ih c' (by simp [h'])), ih c (by simp)]
    simp [setLast_length]

theorem lineData_depths (t : Node) : ∀ (pfx : List Indent) (b : Bool),
    (lineData t pfx b).map (fun e => e.1.length) = depthsNode t pfx.length := by
  induction t using Node.strongInduction with
  | step name children ih =>
    intro pfx b
    simp only [lineData, depthsNode, List.map_cons]
    rw [lineDataKids_depths children ih]

/-- Claim C2, counterexample: on the tree `node -> node1`, the depth-1 line's
rendered prefix has 4 characters, not `3 * 1`. -/
theorem c2_counterexample :
    ¬ ((lineData nodeOneKid [] true).map (fun e => (pfxText e.1).length)
        = (depthsNode nodeOneKid 0).map (fun d => 3 * d)) := by
  decide

/-- Claim C2, amended: in the rendered output (`display t` is exactly the
lines described by `lineData` joined with newlines), the leading prefix of the
line for a node at depth `d` is exactly `4 * d` characters long — each
ancestor level contributes a 3-character token plus one space — and the root
line has an empty prefix and is just its name. -/
theorem c2_prefix_length :
    ∀ t : Node,
      Node.display t = joinLines ((lineData t [] true).map lineText)
      ∧ (lineData t [] true).map (fun e => (pfxText e.1).length)
          = (depthsNode t 0).map (fun d => 4 * d)
      ∧ (lineData t [] true).head? = some ([], t.name) := by
  intro t
  refine ⟨render_eq_lines t [] true, ?_, ?_⟩
  · have h1 : (lineData t [] true).map (fun e => (pfxText e.1).length)
        = ((lineData t [] true).map (fun e => e.1.length)).map (fun n => 4 * n) := by
      simp [List.map_map, Function.comp_def, pfxText_length]
    rw [h1, lineData_depths t [] true]
    rfl
  · cases t with
    | mk name children => rfl

theorem Node.size_pos (t : Node) : 1 ≤ Node.size t := by
  cases t with
  | mk name children => simp [Node.size]

theorem count_pfxText (p : List Indent) : (pfxText p).count '\n' = 0 :=
  List.count_eq_zero.mpr (fun h => mem_pfxText_ne_newline h rfl)

theorem renderKids_count (cs : List Node)
    (ih : ∀ c ∈ cs, Node.namesOk c = true → ∀ (pfx : List Indent) (b : Bool),
      (Node.render c pfx b).count '\n' = Node.size c - 1) :
    ∀ (pfx : List Indent) (b : Bool), namesOkKids cs = true →
      (renderKids cs pfx b).count '\n' = sizeKids cs := by
  induction cs with
  | nil => intro pfx b _; rfl
  | cons c rest ihr =>
    intro pfx b h
    simp only [namesOkKids, Bool.and_eq_true] at h
    have hp := Node.size_pos c
    simp only [renderKids, List.count_cons, List.count_append, sizeKids]
    rw [ih c (by simp) h.1, ihr (fun c' h' hc' => ih c' (by simp [h']) hc') pfx b h.2]
    simp
    omega

theorem render_count (t : Node) : Node.namesOk t = true →
    ∀ (pfx : List Indent) (b : Bool),
      (Node.render t pfx b).count '\n' = Node.size t - 1 := by
  induction t using Node.strongInduction with
  | step name children ih =>
    intro h pfx b
    simp only [Node.namesOk, Bool.and_eq_true] at h
    have hname : ('\n' : Char) ∉ name := by
      have := h.1
      simp at this
      exact this
    simp only [Node.render, List.count_append, Node.size]
    rw [renderKids_count children ih pfx b h.2, count_pfxText,
      List.count_eq_zero.mpr hname]
    omega

theorem render_ne_nil (t : Node) (pfx : List Indent) (b : Bool) (h : pfx ≠ []) :
    Node.render t pfx b ≠ [] := by
  cases t with
  | mk name children =>
    simp only [Node.render]
    intro he
    rw [List.append_assoc, List.append_eq_nil] at he
    exact pfxText_ne_nil h he.1

theorem getLast_cons_ne {α : Type} (a : α) (l : List α) (h : l ≠ []) :
    (a :: l).getLast? = l.getLast? := by
  rw [show a :: l = [a] ++ l from rfl]
  exact List.getLast?_append_of_ne_nil [a] h

theorem renderKids_cons_ne_nil (c : Node) (rest : List Node)
    (pfx : List Indent) (b : Bool) : renderKids (c :: rest) pfx b ≠ [] := by
  simp [renderKids]

theorem renderKids_getLast (cs : List Node)
    (ih : ∀ c ∈ cs, Node.namesOk c = true → ∀ (pfx : List Indent) (b : Bool),
      (Node.render c pfx b).getLast? ≠ some '\n') :
    ∀ (pfx : List Indent) (b : Bool), namesOkKids cs = true → cs ≠ [] →
      (renderKids cs pfx b).getLast? ≠ some '\n' := by
  induction cs with
  | nil => intro pfx b _ hne; exact absurd rfl hne
  | cons c rest ihr =>
    intro pfx b h _
    simp only [namesOkKids, Bool.and_eq_true] at h
    cases rest with
    | nil =>
      simp only [renderKids, List.isEmpty_nil, if_true, List.append_nil]
      have hren : Node.render c
          (setLast pfx (if b then Indent.Blank else Indent.Uplink) ++ [Indent.Last])
          true ≠ [] :=
        render_ne_nil c _ true (by simp)
      rw [getLast_cons_ne _ _ hren]
      exact ih c (by simp) h.1 _ true
    | cons c2 rest2 =>
      have hrest : renderKids (c2 :: rest2) pfx b ≠ [] :=
        renderKids_cons_ne_nil c2 rest2 pfx b
      have hstep : renderKids (c :: c2 :: rest2) pfx b
          = '\n' :: (Node.render c
              (setLast pfx (if b then Indent.Blank else Indent.Uplink)
                ++ [Indent.Split]) false
              ++ renderKids (c2 :: rest2) pfx b) := rfl
      rw [hstep, getLast_cons_ne _ _ (by
        intro hnil
        rw [List.append_eq_nil] at hnil
        exact hrest hnil.2)]
      rw [List.getLast?_append_of_ne_nil _ hrest]
      exact ihr (fun c' h' hc' => ih c' (by simp [h']) hc') pfx b h.2 (by simp)

theorem render_getLast (t : Node) : Node.namesOk t = true →
    ∀ (pfx : List Indent) (b : Bool),
      (Node.render t pfx b).getLast? ≠ some '\n' := by
  induction t using Node.strongInduction with
  | step name children ih =>
    intro h pfx b
    simp only [Node.namesOk, Bool.and_eq_true] at h
    have hname : ('\n' : Char) ∉ name := by
      have := h.1
      simp at this
      exact this
    cases children with
    | nil =>
      simp only [Node.render, renderKids, List.append_nil]
      intro hg
      have hm := List.mem_of_mem_getLast? hg
      rw [List.mem_append] at hm
      rcases hm with hm | hm
      · exact mem_pfxText_ne_newline hm rfl
      · exact hname hm
    | cons c rest =>
      simp only [Node.render]
      have hk : renderKids (c :: rest) pfx b ≠ [] :=
        renderKids_cons_ne_nil c rest pfx b
      rw [List.getLast?_append_of_ne_nil _ hk]
      exact renderKids_getLast (c :: rest) ih pfx b h.2 (by simp)

/-- Claim C3: the rendered output has one line per node: it contains exactly
`node count - 1` newline characters and does not end with a newline (for trees
whose names contain no newline, the caller-side restriction the spec's data
model imposes). -/
theorem c3_line_count (t : Node) (h : Node.namesOk t = true) :
    (Node.display t).count '\n' = Node.size t - 1
    ∧ (Node.display t).getLast? ≠ some '\n' :=
  ⟨render_count t h [] true, render_getLast t h [] true⟩

/-- Claim C3, witness at the two-child tree. -/
theorem c3_witness :
    Node.namesOk nodeTwoKids = true
    ∧ ((Node.display nodeTwoKids).count '\n' = Node.size nodeTwoKids - 1
       ∧ (Node.display nodeTwoKids).getLast? ≠ some '\n') :=
  ⟨by decide, c3_line_count nodeTwoKids (by decide)⟩

/-- Claim C1, counterexample: the code does not render the two-child tree to
the three-line text without a space after each connector; a space follows
every connector (the `result.push(' ')` in `render`). -/
theorem c1_counterexample :
    Node.display nodeTwoKids ≠ "node\n+--node1\n`--node2".toList := by
  decide

/-- Claim C1, amended: rendering a node named `node` with exactly two leaf
children `node1` and `node2` (in that order) produces exactly the three-line
text `node\n+-- node1\n`-- node2`, with one space between each connector and
the child name. -/
theorem c1_render_two_children :
    Node.display nodeTwoKids = "node\n+-- node1\n`-- node2".toList := by
  decide

theorem lineDataKids_conn (cs : List Node)
    (ih : ∀ c ∈ cs, ∀ (base : List Indent) (f : Bool),
      (lineData c (base ++ [if f then Indent.Last else Indent.Split]) f).map
          (fun e => e.1.getLast?)
        = (flagsNode c f).map
            (fun g => some (if g then Indent.Last else Indent.Split))) :
    ∀ (pfx : List Indent) (b : Bool),
      (lineDataKids cs pfx b).map (fun e => e.1.getLast?)
        = (flagsKids cs).map
            (fun g => some (if g then Indent.Last else Indent.Split)) := by
  induction cs with
  | nil => intro pfx b; rfl
  | cons c rest ihr =>
    intro pfx b
    simp only [lineDataKids, flagsKids, List.map_append]
    rw [ih c (by simp), ihr (fun c' h' => ih c' (by simp [h']))]

theorem lineData_conn (t : Node) :
    ∀ (base : List Indent) (f : Bool),
      (lineData t (base ++ [if f then Indent.Last else Indent.Split]) f).map
          (fun e => e.1.getLast?)
        = (flagsNode t f).map
            (fun g => some (if g then Indent.Last else Indent.Split)) := by
  induction t using Node.strongInduction with
  | step name children ih =>
    intro base f
    simp only [lineData, flagsNode, List.map_cons]
    rw [lineDataKids_conn children ih]
    simp

/-- Claim C4: in the rendered line list (`display` is exactly those lines
joined by newlines), the connector drawn immediately before each non-root
node's name — the last element of its prefix stack — is `Last` exactly when
the node is the last child of its parent (so in particular for a sole child)
and `Split` for every earlier sibling; the root line has no connector. -/
theorem c4_connectors :
    ∀ (name : List Char) (cs : List Node),
      Node.display (Node.mk name cs)
        = joinLines ((lineData (Node.mk name cs) [] true).map lineText)
      ∧ (lineData (Node.mk name cs) [] true).map (fun e => e.1.getLast?)
          = none :: (flagsKids cs).map
              (fun g => some (if g then Indent.Last else Indent.Split)) := by
  intro name cs
  refine ⟨render_eq_lines _ [] true, ?_⟩
  simp only [lineData, List.map_cons]
  rw [lineDataKids_conn cs (fun c _ => lineData_conn c)]
  rfl

theorem lineDataKids_shape (cs : List Node)
    (ih : ∀ c ∈ cs, ∀ (pfx : List Indent) (b : Bool) (e : List Indent × List Char),
      e ∈ lineData c pfx b → e.1 = pfx ∨ ∃ s, s ≠ []
        ∧ e.1 = setLast pfx (if b then Indent.Blank else Indent.Uplink) ++ s) :
    ∀ (pfx : List Indent) (b : Bool) (e : List Indent × List Char),
      e ∈ lineDataKids cs pfx b → ∃ s, s ≠ []
        ∧ e.1 = setLast pfx (if b then Indent.Blank else Indent.Uplink) ++ s := by
  induction cs with
  | nil => intro pfx b e he; simp [lineDataKids] at he
  | cons c rest ihr =>
    intro pfx b e he
    simp only [lineDataKids, List.mem_append] at he
    rcases he with he | he
    · rcases ih c (by simp) _ _ e he with h1 | h1
      · exact ⟨[if rest.isEmpty then Indent.Last else Indent.Split], by simp, h1⟩
      · obtain ⟨s, hs, h2⟩ := h1
        rw [setLast_concat] at h2
        refine ⟨(if rest.isEmpty then Indent.Blank else Indent.Uplink) :: s, by simp, ?_⟩
        rw [h2]
        simp
    · exact ihr (fun c' h' => ih c' (by simp [h'])) pfx b e he

theorem lineData_shape (t : Node) :
    ∀ (pfx : List Indent) (b : Bool) (e : List Indent × List Char),
      e ∈ lineData t pfx b → e.1 = pfx ∨ ∃ s, s ≠ []
        ∧ e.1 = setLast pfx (if b then Indent.Blank else Indent.Uplink) ++ s := by
  induction t using Node.strongInduction with
  | step name children ih =>
    intro pfx b e he
    simp only [lineData, List.mem_cons] at he
    rcases he with rfl | he
    · left; rfl
    · right; exact lineDataKids_shape children ih pfx b e he

theorem setLast_getElem (pfx : List Indent) (x : Indent) (h : pfx ≠ []) :
    (setLast pfx x)[pfx.length - 1]? = some x := by
  rw [setLast_eq_dropLast pfx x h]
  have hlen : pfx.dropLast.length = pfx.length - 1 := by simp
  rw [← hlen]
  exact List.getElem?_concat_length _ _

/-- Claim C5: on every line of a proper descendant of a node rendered with
prefix stack `pfx` and last-sibling flag `b`, the prefix column that drew that
node (index `pfx.length - 1`) holds `Blank` when the node was the last sibling
at its level and `Uplink` otherwise. -/
theorem c5_continuation (t : Node) (pfx : List Indent) (b : Bool)
    (e : List Indent × List Char) (hp : pfx ≠ [])
    (he : e ∈ lineDataKids (Node.children t) pfx b) :
    e.1[pfx.length - 1]? = some (if b then Indent.Blank else Indent.Uplink) := by
  obtain ⟨s, hs, hshape⟩ :=
    lineDataKids_shape (Node.children t) (fun c _ => lineData_shape c) pfx b e he
  rw [hshape]
  have hb : pfx.length - 1
      < (setLast pfx (if b then Indent.Blank else Indent.Uplink)).length := by
    rw [setLast_length]
    have : 0 < pfx.length := List.length_pos.mpr hp
    omega
  rw [List.getElem?_append, if_pos hb]
  exact setLast_getElem pfx _ hp

/-- Claim C5, witness: in the one-child tree, the sole descendant line of the
root's child (rendered with stack `[Last]`, flagged last) carries `Blank` in
column 0. -/
theorem c5_witness :
    (([Indent.Blank, Indent.Last], "node1".toList)
        ∈ lineDataKids (Node.children nodeOneKid) [Indent.Last] true)
    ∧ (([Indent.Blank, Indent.Last] : List Indent), "node1".toList).1[0]?
        = some Indent.Blank :=
  ⟨by decide,
   c5_continuation nodeOneKid [Indent.Last] true
     ([Indent.Blank, Indent.Last], "node1".toList) (by decide) (by decide)⟩

/-- Claim C10 (implicit): every element of a rendered prefix occupies exactly
four characters — a 3-character indent token plus one space — every non-root
line's prefix ends in a connector block (`+-- ` or `` `-- ``), and the
single-child tree renders as `node\n`-- node1`. -/
theorem c10_prefix_block :
    (∀ i : Indent, (indentStr i ++ [' ']).length = 4)
    ∧ (∀ (cs : List Node) (e : List Indent × List Char),
        e ∈ lineDataKids cs [] true →
          ∃ r c, (c = Indent.Split ∨ c = Indent.Last)
            ∧ pfxText e.1 = r ++ (indentStr c ++ [' ']))
    ∧ Node.display nodeOneKid = "node\n`-- node1".toList := by
  refine ⟨fun i => by cases i <;> rfl, ?_, by decide⟩
  intro cs e he
  have hconn := lineDataKids_conn cs (fun c _ => lineData_conn c) [] true
  have hmem : e.1.getLast? ∈ (lineDataKids cs [] true).map (fun e => e.1.getLast?) :=
    List.mem_map_of_mem _ he
  rw [hconn, List.mem_map] at hmem
  obtain ⟨g, _, hge⟩ := hmem
  have hge2 := hge.symm
  rw [List.getLast?_eq_some_iff] at hge2
  obtain ⟨l', hl⟩ := hge2
  refine ⟨pfxText l', if g then Indent.Last else Indent.Split, by cases g <;> simp, ?_⟩
  rw [hl, pfxText_append]
  simp [pfxText]

/-- Claim C10, witness: the child line of a one-leaf forest has a prefix
ending in a connector block. -/
theorem c10_witness :
    (([Indent.Last], "node1".toList)
        ∈ lineDataKids [Node.mk "node1".toList []] [] true)
    ∧ ∃ r c, (c = Indent.Split ∨ c = Indent.Last)
        ∧ pfxText (([Indent.Last], "node1".toList) : List Indent × List Char).1
            = r ++ (indentStr c ++ [' ']) :=
  ⟨by decide,
   c10_prefix_block.2.1 [Node.mk "node1".toList []]
     ([Indent.Last], "node1".toList) (by decide)⟩

/-- Claim C8: the argument loop of `main` is fail-fast: with path arguments
that traverse successfully followed by one whose traversal fails with an I/O
error, the error is returned at once, nothing is printed for the failing or
any later argument, and the blocks printed for the earlier arguments remain. -/
theorem c8_fail_fast {A E : Type} (fromPath : A → Except E Node) (g : A → Node)
    (pre : List A) (a : A) (post : List A) (e : E)
    (hok : ∀ x ∈ pre, fromPath x = Except.ok (g x))
    (herr : fromPath a = Except.error e) :
    processArgs fromPath (pre ++ a :: post)
      = (pre.map (fun x => Node.display (g x) ++ ['\n']), some e) := by
  induction pre with
  | nil =>
    simp only [List.nil_append, processArgs, herr, List.map_nil]
  | cons p ps ih =>
    have hp := hok p (by simp)
    simp only [List.cons_append, processArgs, hp, List.map_cons, List.append_eq]
    rw [ih (fun x hx => hok x (by simp [hx]))]

/-- Claim C8, witness: with `fromPathFix` (argument 0 succeeds, all others
fail), the run over arguments `[0, 1, 2]` prints only argument 0's tree and
returns the error raised on argument 1. -/
theorem c8_witness :
    (∀ x ∈ [0], fromPathFix x = Except.ok (Node.singleton ['a']))
    ∧ fromPathFix 1 = Except.error ()
    ∧ processArgs fromPathFix ([0] ++ 1 :: [2])
        = ([Node.display (Node.singleton ['a']) ++ ['\n']], some ()) :=
  ⟨by intro x hx; simp at hx; subst hx; rfl, rfl,
   c8_fail_fast fromPathFix (fun _ => Node.singleton ['a']) [0] 1 [2] ()
     (by intro x hx; simp at hx; subst hx; rfl) rfl⟩

/-- Claim C6: a leaf node, rendered as a root, produces exactly its name with
no trailing characters and no newline; in particular `singleton("name")`
renders to exactly `name`. -/
theorem c6_leaf_renders_name :
    ∀ name : List Char,
      Node.display (Node.mk name []) = name
      ∧ Node.singleton name = Node.mk name []
      ∧ Node.display (Node.singleton "name".toList) = "name".toList := by
  intro name
  refine ⟨?_, rfl, by decide⟩
  simp [Node.display, Node.render, renderKids, pfxText]

/-- Claim C7: `flat(name, [])` equals `singleton(name)`; `flat(name, [a, b])`
equals the directly constructed node with children `[singleton a, singleton
b]`; in general `flat` builds leaf children from the given names in order. -/
theorem c7_flat_builds_leaves :
    ∀ (name a b k : List Char) (ks : List (List Char)),
      Node.flat name [] = Node.singleton name
      ∧ Node.flat name [a, b] = Node.mk name [Node.singleton a, Node.singleton b]
      ∧ Node.flat name (k :: ks) = Node.mk name ((k :: ks).map Node.singleton) := by
  intro name a b k ks
  refine ⟨rfl, rfl, ?_⟩
  simp [Node.flat]

/-- Claim C9: `render` is a total, deterministic function of the tree and the
prefix stack: for every finite tree it terminates and returns exactly one
string (the embedding is a total Lean function, so termination is witnessed by
its very definition). -/
theorem c9_render_total_deterministic :
    ∀ (t : Node) (pfx : List Indent) (b : Bool),
      ∃! s : List Char, Node.render t pfx b = s :=
  fun t pfx b => ⟨Node.render t pfx b, rfl, fun _ hy => hy.symm⟩
